import Mathlib

/-!
Verification of the object-graph compaction engine of the PDF compression
tool, as implemented in `src/processors/streamOptimizer.js` (second
revision: `deduplicateObjects`, `updateArrayReferences`,
`removeUnusedObjects`, `traverseAndMarkReferences`),
`src/processors/imageCompressor.js` (`compressXObjectImage`) and the
pipeline driver `processPDF`/`applyCompression`.

Modelling conventions:
* An indirect-object table (`context.indirectObjects`, a JS `Map` iterated
  in insertion order) is a `List (ObjectId × Node)`.
* `ObjectId` models a `PDFRef`; pdf-lib interns refs, so JS `Map` identity
  keying coincides with keying by the object number.  The generation
  counter plays no role in any of the examined code paths and is fixed to
  0 in the rendered form of a reference.
* A `Node` is the value stored at a table slot, a tagged union mirroring
  the constructor tests the JS performs (`object.dict` for streams and
  dictionaries, `constructor.name === 'PDFArray'`, `'PDFRef'`, else
  primitive).  Nested values (`Value`) may be references, arrays,
  dictionaries or primitives; a primitive carries its `toString`
  rendering.
* JS string hashing (`simpleHash`) is modelled exactly over the char codes
  with 32-bit signed wrap-around; the hash map is keyed by the resulting
  `Int` (the JS code keys by `hash.toString(36)`, which is injective on
  32-bit integers, so the keying is equivalent).
-/

/-- An indirect-object identifier (`PDFRef` object number). -/
abbrev ObjectId := Nat

/-- A value stored inside a dictionary entry or an array slot, mirroring
the pdf-lib object kinds the source distinguishes at runtime
(`PDFRef`, `PDFArray`, `PDFDict`, other primitives). -/
inductive Value where
  | ref (id : ObjectId)
  | arr (items : List Value)
  | dictV (entries : List (String × Value))
  | prim (s : String)

/-- A top-level indirect object: a stream (dictionary plus byte payload),
a dictionary, an array, or a primitive carrying its rendering. -/
inductive Node where
  | stream (dict : List (String × Value)) (payload : List Nat)
  | dict (entries : List (String × Value))
  | arr (items : List Value)
  | prim (s : String)

/-- The in-memory object table: `context.indirectObjects` in iteration
order. -/
abbrev Graph := List (ObjectId × Node)

/-- JS `Map.get` over an insertion-ordered association list. -/
def lookupAssoc {α β : Type} [BEq α] (l : List (α × β)) (a : α) : Option β :=
  (l.find? (fun e => e.1 == a)).map Prod.snd

mutual

/-- Rendering of a nested value, mirroring pdf-lib `toString`
(`"<num> <gen> R"` for refs, bracketed items for arrays, a
`<< ... >>` block for dictionaries, the literal for primitives). -/
def valueToString : Value → String
  | .ref id => toString id ++ " 0 R"
  | .arr items => "[ " ++ valuesToString items ++ "]"
  | .dictV es => "<<\n" ++ entriesToString es ++ ">>"
  | .prim s => s

/-- Rendering of array items, space separated. -/
def valuesToString : List Value → String
  | [] => ""
  | v :: rest => valueToString v ++ " " ++ valuesToString rest

/-- Rendering of dictionary entries, one `/Key value` line each. -/
def entriesToString : List (String × Value) → String
  | [] => ""
  | e :: rest => "/" ++ e.1 ++ " " ++ valueToString e.2 ++ "\n" ++ entriesToString rest

end

/-- pdf-lib `PDFDict.toString`. -/
def dictString (es : List (String × Value)) : String :=
  "<<\n" ++ entriesToString es ++ ">>"

/-- `object.toString()` for a top-level node (used only for the size
estimate of removed objects). -/
def nodeToString : Node → String
  | .stream d p => dictString d ++ "\nstream\n" ++ toString p.length ++ "\nendstream"
  | .dict es => dictString es
  | .arr items => valueToString (.arr items)
  | .prim s => s

/-- The string the first pass of `deduplicateObjects` hashes for one
object: for a stream `` `${dictStr}||${contentsStr}` `` where
`contentsStr` is `String(object.contents.length)` — the payload LENGTH,
not the payload bytes; for every other object its `toString()`
rendering. -/
def contentKey : Node → String
  | .stream d p => dictString d ++ "||" ++ toString p.length
  | .dict es => dictString es
  | .arr items => valueToString (.arr items)
  | .prim s => s

/-- JS `ToInt32`: reduce an integer to the 32-bit signed range. -/
def toInt32 (n : Int) : Int :=
  (n + 2 ^ 31) % 2 ^ 32 - 2 ^ 31

/-- The `simpleHash` function of `streamOptimizer.js`:
`hash = ((hash << 5) - hash) + char; hash = hash & hash` over the char
codes, i.e. `hash ↦ ToInt32 (31 * hash + char)`. -/
def simpleHash (s : String) : Int :=
  s.data.foldl (fun h c => toInt32 (31 * h + c.toNat)) 0

/-- First pass of `deduplicateObjects`: fold over the table keeping
`objectHashes : hash → (ref, content)` (first object stored wins) and
`duplicateRefs : duplicate ref → canonical ref`.  A later object whose
hash is present and whose content string matches the stored one is
recorded as a duplicate of the stored ref. -/
def dedupGo : Graph → List (Int × ObjectId × String) → List (ObjectId × ObjectId) →
    List (ObjectId × ObjectId)
  | [], _, dups => dups
  | (r, n) :: rest, hashes, dups =>
    match lookupAssoc hashes (simpleHash (contentKey n)) with
    | some orig =>
      if orig.2 == contentKey n then dedupGo rest hashes (dups ++ [(r, orig.1)])
      else dedupGo rest hashes dups
    | none => dedupGo rest ((simpleHash (contentKey n), r, contentKey n) :: hashes) dups

/-- The `duplicateRefs` map produced by the first pass of
`deduplicateObjects`, in insertion order. -/
def dedupScan (table : Graph) : List (ObjectId × ObjectId) :=
  dedupGo table [] []

/-- `duplicateRefs.has(value) ? duplicateRefs.get(value) : value`. -/
def substId (dups : List (ObjectId × ObjectId)) (id : ObjectId) : ObjectId :=
  match lookupAssoc dups id with
  | some c => c
  | none => id

/-- `updateArrayReferences` applied to the items of a `PDFArray`: a
`PDFRef` item pointing at a duplicate is replaced by the canonical ref, a
nested `PDFArray` is processed recursively, every other item (including a
nested dictionary) is left untouched. -/
def updateArrayReferences (dups : List (ObjectId × ObjectId)) : List Value → List Value
  | [] => []
  | .ref id :: rest => .ref (substId dups id) :: updateArrayReferences dups rest
  | .arr xs :: rest => .arr (updateArrayReferences dups xs) :: updateArrayReferences dups rest
  | v :: rest => v :: updateArrayReferences dups rest

/-- The dictionary-entry walk of the second pass of `deduplicateObjects`:
a `PDFRef` value pointing at a duplicate is replaced, a `PDFArray` value
is handed to `updateArrayReferences`, every other value (including a
nested dictionary) is left untouched. -/
def updateDictEntries (dups : List (ObjectId × ObjectId)) :
    List (String × Value) → List (String × Value)
  | [] => []
  | (k, .ref id) :: rest => (k, .ref (substId dups id)) :: updateDictEntries dups rest
  | (k, .arr xs) :: rest => (k, .arr (updateArrayReferences dups xs)) :: updateDictEntries dups rest
  | (k, v) :: rest => (k, v) :: updateDictEntries dups rest

/-- The per-object reference rewrite of the second pass: streams and
dictionaries get their top-level entries walked, top-level arrays are
handed to `updateArrayReferences`, primitives are untouched. -/
def rewriteNode (dups : List (ObjectId × ObjectId)) : Node → Node
  | .stream d p => .stream (updateDictEntries dups d) p
  | .dict es => .dict (updateDictEntries dups es)
  | .arr items => .arr (updateArrayReferences dups items)
  | .prim s => .prim s

/-- `deduplicateObjects` of `streamOptimizer.js`: scan for duplicates;
when any were found, rewrite references throughout the table and then
delete every duplicate ref from the table. -/
def deduplicateObjects (table : Graph) : Graph :=
  let dups := dedupScan table
  if dups.isEmpty then table
  else
    ((table.map fun e => (e.1, rewriteNode dups e.2)).filter
      fun e => (lookupAssoc dups e.1).isNone)

/-- Statistics object of `removeUnusedObjects`. -/
structure RemoveStats where
  objectsChecked : Nat
  unusedObjectsRemoved : Nat
  spaceSaved : Nat
deriving DecidableEq

/-- Size estimate for a removed object:
`objStr.length || 100` on `object.toString()`. -/
def estimateSavedSize (n : Node) : Nat :=
  let len := (nodeToString n).length
  if len = 0 then 100 else len

/-- The unused-scan loop of `removeUnusedObjects`, one table entry at a
time: counts every object and collects (with its size estimate) every
object whose ref is not in the referenced set. -/
def unusedScanGo (referenced : List ObjectId)
    (acc : List ObjectId × RemoveStats) : Graph → List ObjectId × RemoveStats
  | [] => acc
  | e :: rest =>
    let counted : RemoveStats :=
      { acc.2 with objectsChecked := acc.2.objectsChecked + 1 }
    if e.1 ∈ referenced then unusedScanGo referenced (acc.1, counted) rest
    else unusedScanGo referenced
      (acc.1 ++ [e.1],
        { counted with spaceSaved := counted.spaceSaved + estimateSavedSize e.2 }) rest

/-- The unused-scan loop of `removeUnusedObjects` over the whole table. -/
def unusedScan (referenced : List ObjectId) (table : Graph) :
    List ObjectId × RemoveStats :=
  unusedScanGo referenced ([], ⟨0, 0, 0⟩) table

/-- `removeUnusedObjects` of `streamOptimizer.js`: the traversal from the
roots is commented out ("DISABLED: Too aggressive, breaks PDFs"), and
instead EVERY ref in the table is marked as referenced; the scan then
collects the (necessarily empty) unreferenced set and deletes its
members. -/
def removeUnusedObjects (table : Graph) : Graph × RemoveStats :=
  let referencedObjects := table.map Prod.fst
  let scan := unusedScan referencedObjects table
  let unusedRefs := scan.1
  let remaining := table.filter fun e => e.1 ∉ unusedRefs
  (remaining, { scan.2 with unusedObjectsRemoved := unusedRefs.length })

/-- The references `traverseArrayReferences` (and, identically,
`updateArrayReferences`) finds in the items of an array: `PDFRef` items
at any array-nesting depth; items of other kinds — including nested
dictionaries — are not descended into. -/
def itemRefs : List Value → List ObjectId
  | [] => []
  | .ref id :: rest => id :: itemRefs rest
  | .arr xs :: rest => itemRefs xs ++ itemRefs rest
  | _ :: rest => itemRefs rest

/-- The references the dictionary-entry walk finds: `PDFRef` values and
refs inside `PDFArray` values; other values — including nested
dictionaries — are not descended into. -/
def entryRefs : List (String × Value) → List ObjectId
  | [] => []
  | (_, .ref id) :: rest => id :: entryRefs rest
  | (_, .arr xs) :: rest => itemRefs xs ++ entryRefs rest
  | (_, _) :: rest => entryRefs rest

/-- The child references of one object, as discovered both by
`traverseAndMarkReferences` and by the reference-rewriting second pass of
`deduplicateObjects` (the two walks inspect exactly the same
positions). -/
def childRefs : Node → List ObjectId
  | .stream d _ => entryRefs d
  | .dict es => entryRefs es
  | .arr items => itemRefs items
  | .prim _ => []

mutual

/-- ALL references occurring anywhere in a value, nested dictionaries
included — the "full Node-by-Node scan" notion of the specification,
strictly larger than the set of positions the code walks. -/
def valueRefs : Value → List ObjectId
  | .ref id => [id]
  | .arr items => valueListRefs items
  | .dictV es => entryListRefs es
  | .prim _ => []

/-- `valueRefs` over a list of values. -/
def valueListRefs : List Value → List ObjectId
  | [] => []
  | v :: rest => valueRefs v ++ valueListRefs rest

/-- `valueRefs` over dictionary entries. -/
def entryListRefs : List (String × Value) → List ObjectId
  | [] => []
  | e :: rest => valueRefs e.2 ++ entryListRefs rest

end

/-- All references occurring anywhere in a node (full scan, nested
dictionaries included). -/
def allRefs : Node → List ObjectId
  | .stream d _ => entryListRefs d
  | .dict es => entryListRefs es
  | .arr items => valueListRefs items
  | .prim _ => []

/-- `traverseAndMarkReferences` rendered as a worklist: the JS function
is a recursive DFS guarded by `if (referencedObjects.has(ref)) return`,
marking a ref before expanding the children `childRefs` finds.  The
stack-based rendering below performs the same marking with the same
at-most-once discipline; only the recursion bookkeeping differs, so the
resulting marked set is the same and termination is witnessed by a
decreasing measure. -/
def markLoop (table : Graph) (visited stack : List ObjectId) : List ObjectId :=
  match stack with
  | [] => visited
  | r :: rest =>
    if hv : r ∈ visited then markLoop table visited rest
    else
      match hl : lookupAssoc table r with
      | none => markLoop table (r :: visited) rest
      | some n => markLoop table (r :: visited) (childRefs n ++ rest)
termination_by (((table.map Prod.fst).toFinset \ visited.toFinset).card, stack.length)
decreasing_by
  · exact Prod.Lex.right _ (Nat.lt_succ_self _)
  · simp only [lookupAssoc, Option.map_eq_none', List.find?_eq_none] at hl
    have hr : r ∉ table.map Prod.fst := by
      intro hmem
      rcases List.mem_map.mp hmem with ⟨e, he, hfst⟩
      have := hl e he
      simp [hfst] at this
    have hset : (table.map Prod.fst).toFinset \ (r :: visited).toFinset
        = (table.map Prod.fst).toFinset \ visited.toFinset := by
      ext x
      by_cases hx : x = r
      · subst hx
        simp [List.mem_toFinset, hr]
      · simp [List.mem_toFinset, hx]
    rw [hset]
    exact Prod.Lex.right _ (Nat.lt_succ_self _)
  · have hfind : ∃ w, table.find? (fun e => e.1 == r) = some w := by
      cases hf : table.find? (fun e => e.1 == r) with
      | none => rw [lookupAssoc, hf] at hl; simp at hl
      | some w => exact ⟨w, rfl⟩
    rcases hfind with ⟨w, hw⟩
    have hwr : w.1 = r := by simpa using List.find?_some hw
    have hwt : w ∈ table := List.mem_of_find?_eq_some hw
    have hr : r ∈ table.map Prod.fst := List.mem_map.mpr ⟨w, hwt, hwr⟩
    apply Prod.Lex.left
    apply Finset.card_lt_card
    rw [Finset.ssubset_iff_of_subset]
    · refine ⟨r, ?_, ?_⟩
      · exact Finset.mem_sdiff.mpr ⟨List.mem_toFinset.mpr hr, by simpa [List.mem_toFinset] using hv⟩
      · intro hcon
        rcases Finset.mem_sdiff.mp hcon with ⟨h1, h2⟩
        exact h2 (by simp [List.mem_toFinset])
    · intro x hx
      rcases Finset.mem_sdiff.mp hx with ⟨h1, h2⟩
      refine Finset.mem_sdiff.mpr ⟨h1, ?_⟩
      intro hcon
      exact h2 (by simp only [List.mem_toFinset] at hcon ⊢; exact List.mem_cons_of_mem _ hcon)

/-- `traverseAndMarkReferences(root, indirectObjects, new Set(), context)`:
the set of refs marked starting from `root`. -/
def traverseAndMarkReferences (table : Graph) (root : ObjectId) : List ObjectId :=
  markLoop table [] [root]

/-- A ref is reachable from `root` when a finite chain of `childRefs`
steps through objects present in the table leads to it (the traversal's
own notion of a reference path). -/
inductive Reachable (table : Graph) (root : ObjectId) : ObjectId → Prop where
  | base : Reachable table root root
  | step {a b : ObjectId} {n : Node} : Reachable table root a →
      lookupAssoc table a = some n → b ∈ childRefs n → Reachable table root b

/-- The compression settings relevant to `applyCompression` (the other
fields never influence the examined control flow). -/
structure CompressionSettings where
  objectCompression : String

/-- The Step-5 guard of `applyCompression` in `pdfProcessor.js`:
`if (false && settings.objectCompression === 'maximum')` — the advanced
optimizations (object deduplication and unused-object removal) are
statically disabled. -/
def advancedOptimizationsEnabled (settings : CompressionSettings) : Bool :=
  false && (settings.objectCompression == "maximum")

/-- `applyCompression` of `pdfProcessor.js`: runs metadata stripping,
image compression, stream optimization and font subsetting in order (each
an external collaborator here, passed as a function that either yields
the updated graph or throws), then — only when the Step-5 guard is true —
deduplicates and removes unused objects.  A thrown error is wrapped as
`Compression application failed: ...` and rethrown. -/
def applyCompression
    (stripStep imgStep streamStep fontStep : Graph → Except String Graph)
    (settings : CompressionSettings) (doc : Graph) : Except String Graph :=
  let run : Except String Graph := do
    let d1 ← stripStep doc
    let d2 ← imgStep d1
    let d3 ← streamStep d2
    let d4 ← fontStep d3
    if advancedOptimizationsEnabled settings then
      pure (removeUnusedObjects (deduplicateObjects d4)).1
    else
      pure d4
  match run with
  | .ok d => .ok d
  | .error msg => .error ("Compression application failed: " ++ msg)

/-- The size-relevant decision of `compressXObjectImage` in
`imageCompressor.js`.  `candidate` is the byte size of the replacement
payload when extraction, compression and embedding all succeeded
(`none` when any stage returned null).  Result: the size added to
`stats.compressedImagesSize`, and whether a replacement is returned to
the caller (which then rewires the XObject entry to the new image).
The skip test is `width <= targetWidth && height <= targetHeight &&
originalSize < 10000`; the target dimensions are derived upstream from
the DPI setting.  NOTE: a produced candidate is applied without any
comparison against `originalSize`. -/
def compressXObjectImage (width height targetWidth targetHeight originalSize : Nat)
    (candidate : Option Nat) : Nat × Bool :=
  if width ≤ targetWidth ∧ height ≤ targetHeight ∧ originalSize < 10000 then
    (originalSize, false)
  else
    match candidate with
    | none => (originalSize, false)
    | some candidateSize => (candidateSize, true)

/-- Modelled from the spec: the Replacement Gate
`accept(original_size, candidate_size, margin) -> bool`, i.e.
`candidate_size <= original_size * (1 - margin)`, with the margin given
as the fraction `marginNum / marginDen`.  Stated over naturals:
`candidate * den <= original * (den - num)`.  (This contract appears
nowhere in the source; it is formalized only to compare the claim
against `compressXObjectImage`.) -/
def replacementGateAccept (originalSize candidateSize marginNum marginDen : Nat) : Bool :=
  decide (candidateSize * marginDen ≤ originalSize * (marginDen - marginNum))

/-- Two stream objects with identical dictionaries and equal-length but
different payload bytes. -/
def dupStreamTable : Graph :=
  [(1, .stream [("Filter", .prim "/FlateDecode")] [0]),
   (2, .stream [("Filter", .prim "/FlateDecode")] [1])]

/-- Object 1 holds a nested dictionary whose entry references object 3;
objects 2 and 3 are duplicates. -/
def nestedDictTable : Graph :=
  [(1, .dict [("K", .dictV [("R", .ref 3)])]),
   (2, .prim "pp"),
   (3, .prim "pp")]

/-- Scenario A of the spec: the root object 1 references only X = 2;
Y = 3 references Z = 4; neither 3 nor 4 is reachable from 1. -/
def scenarioATable : Graph :=
  [(1, .dict [("X", .ref 2)]),
   (2, .prim "xx"),
   (3, .dict [("Z", .ref 4)]),
   (4, .prim "zz")]

/-- Two byte-identical catalog dictionaries — skeleton objects per the
spec's classification. -/
def catalogDupTable : Graph :=
  [(1, .dict [("Type", .prim "/Catalog")]),
   (2, .dict [("Type", .prim "/Catalog")])]

/-- Two identical primitives stored at ids 5 and 3, in that table order:
the numerically smaller id comes second. -/
def firstSeenTable : Graph :=
  [(5, .prim "pp"), (3, .prim "pp")]

/-- Object 1 references duplicate 3 from a top-level dictionary entry —
a position the rewriter covers. -/
def coveredWitnessTable : Graph :=
  [(1, .dict [("A", .ref 3)]),
   (2, .prim "pp"),
   (3, .prim "pp")]

/-- Scenario D of the spec: array 10 references dictionary 11, which
references array 10 back — a reference cycle. -/
def cycleTable : Graph :=
  [(10, .arr [.ref 11]),
   (11, .dict [("B", .ref 10)])]

/-- Helper: when every table entry's ref is in `referenced`, the scan
loop only counts objects. -/
theorem unusedScanGo_all_referenced (referenced : List ObjectId) :
    ∀ (table : Graph) (acc : List ObjectId × RemoveStats),
      (∀ e ∈ table, e.1 ∈ referenced) →
      unusedScanGo referenced acc table =
        (acc.1, ⟨acc.2.objectsChecked + table.length,
                 acc.2.unusedObjectsRemoved, acc.2.spaceSaved⟩) := by
  intro table
  induction table with
  | nil => intro acc _; simp [unusedScanGo]
  | cons e rest ih =>
    intro acc hall
    have he : e.1 ∈ referenced := hall e (List.mem_cons_self e rest)
    rw [unusedScanGo, if_pos he,
      ih _ (fun x hx => hall x (List.mem_cons_of_mem e hx))]
    simp [Nat.add_comm, Nat.add_assoc, Nat.add_left_comm]

/-- C10.  `removeUnusedObjects` is the identity on the object table:
because the root traversal is disabled, every ref in the table is marked
as referenced, so the removal set is empty, no object is deleted, and
the statistics report `unusedObjectsRemoved = 0` (with every object
counted as checked and no space saved). -/
theorem removeUnusedObjects_removes_nothing (table : Graph) :
    removeUnusedObjects table = (table, ⟨table.length, 0, 0⟩) := by
  have h := unusedScanGo_all_referenced (table.map Prod.fst) table ([], ⟨0, 0, 0⟩)
    (fun e he => List.mem_map.mpr ⟨e, he, rfl⟩)
  simp only [removeUnusedObjects, unusedScan, h]
  simp

/-- C3 counterexample.  On the spec's Scenario A table (root 1 references
only X = 2, unreachable Y = 3 references unreachable Z = 4) the claim
demands that collect remove 3 and 4; the code keeps all four objects. -/
theorem remove_unused_keeps_dead_subgraph :
    ((removeUnusedObjects scenarioATable).1.map Prod.fst = [1, 2, 3, 4]) ∧
      (removeUnusedObjects scenarioATable).2.unusedObjectsRemoved = 0 := by
  constructor <;> rfl

/-- C3 amended.  On Scenario A, `removeUnusedObjects` removes nothing at
all: the table survives unchanged (X, Y and Z all kept) and the
statistics report zero removals. -/
theorem remove_unused_is_noop_on_scenarioA :
    removeUnusedObjects scenarioATable = (scenarioATable, ⟨4, 0, 0⟩) := by
  have h := unusedScanGo_all_referenced (scenarioATable.map Prod.fst) scenarioATable
    ([], ⟨0, 0, 0⟩) (fun e he => List.mem_map.mpr ⟨e, he, rfl⟩)
  simp only [removeUnusedObjects, unusedScan, h]
  simp [scenarioATable]

set_option maxRecDepth 100000 in
/-- C1.  `deduplicateObjects` merges the two stream objects of
`dupStreamTable`, which have identical dictionaries and equal payload
LENGTH but different payload bytes ([0] versus [1]): object 2 is mapped
to object 1 and deleted, although the two streams are not structurally
equal — the hash string uses `String(object.contents.length)`, never the
payload bytes. -/
theorem dedup_merges_streams_with_distinct_payloads :
    deduplicateObjects dupStreamTable =
      [(1, .stream [("Filter", .prim "/FlateDecode")] [0])] ∧
    ([0] : List Nat) ≠ [1] := by
  exact ⟨rfl, by decide⟩

set_option maxRecDepth 100000 in
/-- C2 counterexample.  On `nestedDictTable`, `deduplicateObjects` maps
duplicate 3 to canonical 2 and deletes object 3, but the reference to 3
sitting inside the nested dictionary value of surviving object 1 is never
rewritten (the rewrite walk does not descend into dictionary-valued
entries): a full scan of the surviving node 1 still finds a reference to
3, while 3 is no longer present in the table — a dangling reference. -/
theorem dedup_leaves_dangling_reference_in_nested_dict :
    deduplicateObjects nestedDictTable =
      [(1, .dict [("K", .dictV [("R", .ref 3)])]), (2, .prim "pp")] ∧
    3 ∈ allRefs (Node.dict [("K", .dictV [("R", .ref 3)])]) ∧
    (3 : ObjectId) ∉ (deduplicateObjects nestedDictTable).map Prod.fst := by
  refine ⟨rfl, ?_, ?_⟩
  · simp [allRefs, entryListRefs, valueRefs]
  · rw [show (deduplicateObjects nestedDictTable).map Prod.fst = [1, 2] from rfl]
    decide

/-- C4 counterexample.  The reference rewriter does NOT recurse into
nested dictionaries: with the canonicalization map `3 ↦ 2`, the
reference to 3 inside a dictionary-valued entry is left unreplaced (the
node is returned unchanged) although 3 is a key of the map. -/
theorem rewriter_skips_nested_dictionary :
    rewriteNode [(3, 2)] (.dict [("K", .dictV [("R", .ref 3)])]) =
      .dict [("K", .dictV [("R", .ref 3)])] ∧
    lookupAssoc [((3 : ObjectId), (2 : ObjectId))] 3 = some 2 := by
  exact ⟨rfl, rfl⟩

set_option maxRecDepth 100000 in
/-- C6 counterexample.  Two byte-identical catalog dictionaries —
skeleton objects in the spec's classification — are deduplicated like any
other object: object 2 (a catalog) appears as a key of the canonical
map and is deleted from the table. -/
theorem dedup_canonicalizes_catalog_object :
    dedupScan catalogDupTable = [(2, 1)] ∧
    (deduplicateObjects catalogDupTable).map Prod.fst = [1] := by
  exact ⟨rfl, rfl⟩

/-- C6 amended.  `deduplicateObjects` applies no skeleton (or any
type-based) exclusion at all: for EVERY node — page-tree, catalog or
otherwise — a table holding two copies of that node maps the second ref
to the first. -/
theorem dedup_has_no_skeleton_exclusion (n : Node) (r1 r2 : ObjectId) :
    dedupScan [(r1, n), (r2, n)] = [(r2, r1)] := by
  simp [dedupScan, dedupGo, lookupAssoc]

set_option maxRecDepth 100000 in
/-- C7 counterexample.  With two identical objects stored at ids 5 and 3
(in that table order), the canonical representative is 5 — the first one
encountered in table iteration order — not the numerically smallest id 3
demanded by the claim. -/
theorem dedup_canonical_is_first_seen_not_smallest :
    dedupScan firstSeenTable = [(3, 5)] ∧ (3 : ObjectId) < 5 := by
  exact ⟨rfl, by decide⟩

/-- C8 counterexample.  An image replacement candidate only 3% smaller
than the original (9700 versus 10000 bytes) is applied by
`compressXObjectImage` (it returns the replacement and books the
candidate size), while the spec's Replacement Gate with a 5% margin
rejects it. -/
theorem image_replacement_accepts_three_percent_gain :
    compressXObjectImage 1000 1000 500 500 10000 (some 9700) = (9700, true) ∧
    replacementGateAccept 10000 9700 5 100 = false := by
  exact ⟨rfl, rfl⟩

/-- C8 amended.  `compressXObjectImage` contains no size-margin gate:
whenever the skip precondition (`width <= targetWidth && height <=
targetHeight && originalSize < 10000`) does not hold, any candidate the
pipeline produced is applied — regardless of how its size compares to the
original — and when no candidate was produced the original is kept. -/
theorem image_replacement_has_no_margin_gate
    (w h tw th s c : Nat) (hskip : ¬(w ≤ tw ∧ h ≤ th ∧ s < 10000)) :
    compressXObjectImage w h tw th s (some c) = (c, true) ∧
    compressXObjectImage w h tw th s none = (s, false) := by
  unfold compressXObjectImage
  rw [if_neg hskip, if_neg hskip]
  exact ⟨rfl, rfl⟩

/-- Witness for `image_replacement_has_no_margin_gate` at the concrete
Scenario E numbers. -/
theorem image_replacement_has_no_margin_gate_witness :
    compressXObjectImage 1000 1000 500 500 10000 (some 9700) = (9700, true) ∧
    compressXObjectImage 1000 1000 500 500 10000 none = (10000, false) :=
  image_replacement_has_no_margin_gate 1000 1000 500 500 10000 9700 (by decide)

/-- C5 counterexample.  When a compression step fails (here: metadata
stripping), `applyCompression` does not fall back to the original graph
with a warning — it rethrows the error (`Compression application
failed: ...`), so no graph at all is produced for serialization. -/
theorem applyCompression_propagates_step_error :
    applyCompression (fun _ => .error "metadata stripping failed")
      (fun g => .ok g) (fun g => .ok g) (fun g => .ok g)
      ⟨"maximum"⟩ scenarioATable =
      .error "Compression application failed: metadata stripping failed" := by
  rfl

/-- C5 amended.  `applyCompression` contains no validation-and-rollback
guard at all: the Step-5 compaction branch is statically disabled
(`if (false && ...)`), so for every settings value the result is exactly
the four payload steps chained, with a failure wrapped and rethrown —
deduplication and unused-object removal never run, and no mutated graph
is ever checked or discarded. -/
theorem applyCompression_never_runs_compaction
    (s1 s2 s3 s4 : Graph → Except String Graph)
    (settings : CompressionSettings) (doc : Graph) :
    advancedOptimizationsEnabled settings = false ∧
    applyCompression s1 s2 s3 s4 settings doc =
      (match s1 doc >>= s2 >>= s3 >>= s4 with
       | .ok d => .ok d
       | .error msg => .error ("Compression application failed: " ++ msg)) := by
  refine ⟨by simp [advancedOptimizationsEnabled], ?_⟩
  unfold applyCompression
  simp only [advancedOptimizationsEnabled, Bool.false_and, Bool.false_eq_true, if_false]
  cases h1 : s1 doc with
  | error e => simp [Bind.bind, Except.bind]
  | ok d1 =>
    cases h2 : s2 d1 with
    | error e => simp [Bind.bind, Except.bind, h2]
    | ok d2 =>
      cases h3 : s3 d2 with
      | error e => simp [Bind.bind, Except.bind, h2, h3]
      | ok d3 =>
        cases h4 : s4 d3 with
        | error e => simp [Bind.bind, Except.bind, h2, h3, h4]
        | ok d4 => simp [Bind.bind, Except.bind, h2, h3, h4, Pure.pure, Except.pure]

/-- Helper: a successful association lookup yields a member pair. -/
theorem lookupAssoc_mem {α β : Type} [BEq α] [LawfulBEq α] {l : List (α × β)} {a : α} {b : β}
    (h : lookupAssoc l a = some b) : (a, b) ∈ l := by
  unfold lookupAssoc at h
  cases hf : l.find? (fun e => e.1 == a) with
  | none => rw [hf] at h; simp at h
  | some w =>
    rw [hf] at h
    simp at h
    have hw1 : w.1 = a := by simpa using List.find?_some hf
    have hw : w ∈ l := List.mem_of_find?_eq_some hf
    rw [← hw1, ← h]
    simpa using hw

/-- Helper: a lookup misses exactly when the key is absent. -/
theorem lookupAssoc_eq_none {α β : Type} [BEq α] [LawfulBEq α] {l : List (α × β)} {a : α} :
    lookupAssoc l a = none ↔ a ∉ l.map Prod.fst := by
  unfold lookupAssoc
  constructor
  · intro h hmem
    rcases List.mem_map.mp hmem with ⟨e, he, hfst⟩
    simp only [Option.map_eq_none', List.find?_eq_none] at h
    have := h e he
    simp [hfst] at this
  · intro h
    simp only [Option.map_eq_none', List.find?_eq_none]
    intro e he
    intro hbeq
    exact h (List.mem_map.mpr ⟨e, he, by simpa using hbeq⟩)

/-- Helper: the refs found in array items after the rewrite are exactly
the original refs with the canonical substitution applied. -/
theorem itemRefs_update (dups : List (ObjectId × ObjectId)) (items : List Value) :
    itemRefs (updateArrayReferences dups items) = (itemRefs items).map (substId dups) := by
  induction items using updateArrayReferences.induct dups with
  | case1 => simp [updateArrayReferences, itemRefs]
  | case2 id rest ih => simp [updateArrayReferences, itemRefs, ih]
  | case3 xs rest ih1 ih2 => simp [updateArrayReferences, itemRefs, ih1, ih2]
  | case4 v rest h1 h2 ih =>
    cases v with
    | ref id => exact absurd rfl (h1 id)
    | arr xs => exact absurd rfl (h2 xs)
    | dictV es => simp [updateArrayReferences, itemRefs, ih]
    | prim s => simp [updateArrayReferences, itemRefs, ih]

/-- Helper: the refs found in dictionary entries after the rewrite are
exactly the original refs with the canonical substitution applied. -/
theorem entryRefs_update (dups : List (ObjectId × ObjectId)) (es : List (String × Value)) :
    entryRefs (updateDictEntries dups es) = (entryRefs es).map (substId dups) := by
  induction es using updateDictEntries.induct dups with
  | case1 => simp [updateDictEntries, entryRefs]
  | case2 k id rest ih => simp [updateDictEntries, entryRefs, ih]
  | case3 k xs rest ih => simp [updateDictEntries, entryRefs, ih, itemRefs_update]
  | case4 k v rest h1 h2 ih =>
    cases v with
    | ref id => exact absurd rfl (h1 id)
    | arr xs => exact absurd rfl (h2 xs)
    | dictV es2 => simp [updateDictEntries, entryRefs, ih]
    | prim s => simp [updateDictEntries, entryRefs, ih]

/-- Helper: the walked (covered) refs of a rewritten node are the
original covered refs with the canonical substitution applied. -/
theorem childRefs_rewriteNode (dups : List (ObjectId × ObjectId)) (n : Node) :
    childRefs (rewriteNode dups n) = (childRefs n).map (substId dups) := by
  cases n with
  | stream d p => simp [rewriteNode, childRefs, entryRefs_update]
  | dict es => simp [rewriteNode, childRefs, entryRefs_update]
  | arr items => simp [rewriteNode, childRefs, itemRefs_update]
  | prim s => simp [rewriteNode, childRefs]

/-- Helper: when no canonical target of the map is itself a key of the
map, the substitution is idempotent. -/
theorem substId_idem (dups : List (ObjectId × ObjectId))
    (hc : ∀ p ∈ dups, lookupAssoc dups p.2 = none) (id : ObjectId) :
    substId dups (substId dups id) = substId dups id := by
  unfold substId
  cases hl : lookupAssoc dups id with
  | none => rw [hl]
  | some c =>
    have := hc (id, c) (lookupAssoc_mem hl)
    simp only at this
    rw [this]

/-- Helper: idempotence of the array-item rewrite. -/
theorem updateArrayReferences_idem (dups : List (ObjectId × ObjectId))
    (hc : ∀ p ∈ dups, lookupAssoc dups p.2 = none) (items : List Value) :
    updateArrayReferences dups (updateArrayReferences dups items) =
      updateArrayReferences dups items := by
  induction items using updateArrayReferences.induct dups with
  | case1 => simp [updateArrayReferences]
  | case2 id rest ih => simp [updateArrayReferences, ih, substId_idem dups hc]
  | case3 xs rest ih1 ih2 => simp [updateArrayReferences, ih1, ih2]
  | case4 v rest h1 h2 ih =>
    cases v with
    | ref id => exact absurd rfl (h1 id)
    | arr xs => exact absurd rfl (h2 xs)
    | dictV es => simp [updateArrayReferences, ih]
    | prim s => simp [updateArrayReferences, ih]

/-- Helper: idempotence of the dictionary-entry rewrite. -/
theorem updateDictEntries_idem (dups : List (ObjectId × ObjectId))
    (hc : ∀ p ∈ dups, lookupAssoc dups p.2 = none) (es : List (String × Value)) :
    updateDictEntries dups (updateDictEntries dups es) = updateDictEntries dups es := by
  induction es using updateDictEntries.induct dups with
  | case1 => simp [updateDictEntries]
  | case2 k id rest ih => simp [updateDictEntries, ih, substId_idem dups hc]
  | case3 k xs rest ih =>
    simp [updateDictEntries, ih, updateArrayReferences_idem dups hc]
  | case4 k v rest h1 h2 ih =>
    cases v with
    | ref id => exact absurd rfl (h1 id)
    | arr xs => exact absurd rfl (h2 xs)
    | dictV es2 => simp [updateDictEntries, ih]
    | prim s => simp [updateDictEntries, ih]

/-- Helper: every pair recorded by the dedup scan pairs a duplicate with
a canonical that occurs strictly EARLIER in the table and has the same
content key. -/
theorem dedupGo_pairs (rest : Graph) :
    ∀ (processed : Graph) (hashes : List (Int × ObjectId × String))
      (dups : List (ObjectId × ObjectId)),
      (∀ t ∈ hashes, ∃ nc, (t.2.1, nc) ∈ processed ∧ contentKey nc = t.2.2) →
      (∀ p ∈ dups, ∃ l1 nc l2 nr l3,
        processed ++ rest = l1 ++ (p.2, nc) :: l2 ++ (p.1, nr) :: l3 ∧
        contentKey nc = contentKey nr) →
      ∀ p ∈ dedupGo rest hashes dups,
        ∃ l1 nc l2 nr l3,
          processed ++ rest = l1 ++ (p.2, nc) :: l2 ++ (p.1, nr) :: l3 ∧
          contentKey nc = contentKey nr := by
  induction rest with
  | nil =>
    intro processed hashes dups _ hd p hp
    rw [dedupGo] at hp
    exact hd p hp
  | cons e rest ih =>
    obtain ⟨r, n⟩ := e
    intro processed hashes dups hh hd p hp
    rw [dedupGo] at hp
    have hfull : (processed ++ [(r, n)]) ++ rest = processed ++ (r, n) :: rest := by
      simp
    cases hhit : lookupAssoc hashes (simpleHash (contentKey n)) with
    | none =>
      rw [hhit] at hp
      dsimp only at hp
      have := ih (processed ++ [(r, n)])
        ((simpleHash (contentKey n), r, contentKey n) :: hashes) dups
        (by
          intro t ht
          rcases List.mem_cons.mp ht with h | h
          · subst h
            exact ⟨n, List.mem_append.mpr (Or.inr (List.mem_singleton.mpr rfl)), rfl⟩
          · rcases hh t h with ⟨nc, hmem, hkey⟩
            exact ⟨nc, List.mem_append.mpr (Or.inl hmem), hkey⟩)
        (by rw [hfull]; exact hd)
        p hp
      rwa [hfull] at this
    | some orig =>
      rw [hhit] at hp
      dsimp only at hp
      by_cases hbq : orig.2 == contentKey n
      · rw [if_pos hbq] at hp
        have := ih (processed ++ [(r, n)]) hashes (dups ++ [(r, orig.1)])
          (by
            intro t ht
            rcases hh t ht with ⟨nc, hmem, hkey⟩
            exact ⟨nc, List.mem_append.mpr (Or.inl hmem), hkey⟩)
          (by
            rw [hfull]
            intro q hq
            rcases List.mem_append.mp hq with h | h
            · exact hd q h
            · rw [List.mem_singleton.mp h]
              have horig : (simpleHash (contentKey n), orig) ∈ hashes :=
                lookupAssoc_mem hhit
              rcases hh _ horig with ⟨nc, hmem, hkey⟩
              rcases List.append_of_mem hmem with ⟨s, t, hst⟩
              refine ⟨s, nc, t, n, rest, ?_, ?_⟩
              · rw [hst]
              · rw [hkey]; exact eq_of_beq hbq)
          p hp
        rwa [hfull] at this
      · rw [if_neg hbq] at hp
        have := ih (processed ++ [(r, n)]) hashes dups
          (by
            intro t ht
            rcases hh t ht with ⟨nc, hmem, hkey⟩
            exact ⟨nc, List.mem_append.mpr (Or.inl hmem), hkey⟩)
          (by rw [hfull]; exact hd)
          p hp
        rwa [hfull] at this

/-- Helper: with pairwise-distinct table ids, no ref recorded as a
canonical by the dedup scan is ever also recorded as a duplicate key. -/
theorem dedupGo_canonical_not_key (rest : Graph) :
    ∀ (processed : Graph) (hashes : List (Int × ObjectId × String))
      (dups : List (ObjectId × ObjectId)),
      ((processed ++ rest).map Prod.fst).Nodup →
      (∀ t ∈ hashes, t.2.1 ∈ processed.map Prod.fst) →
      (∀ p ∈ dups, p.1 ∈ processed.map Prod.fst) →
      (∀ p ∈ dups, p.2 ∈ hashes.map fun t => t.2.1) →
      (∀ t ∈ hashes, t.2.1 ∉ dups.map Prod.fst) →
      ∀ p ∈ dedupGo rest hashes dups,
        p.2 ∉ (dedupGo rest hashes dups).map Prod.fst := by
  induction rest with
  | nil =>
    intro processed hashes dups _ _ _ hcanon hdisj p hp
    rw [dedupGo] at hp ⊢
    intro hmem
    rcases List.mem_map.mp hmem with ⟨q, hq, hqfst⟩
    rcases List.mem_map.mp (hcanon p hp) with ⟨t, ht, htref⟩
    exact hdisj t ht (List.mem_map.mpr ⟨q, hq, by rw [hqfst, htref]⟩)
  | cons e rest ih =>
    obtain ⟨r, n⟩ := e
    intro processed hashes dups hnodup hhash hkeys hcanon hdisj
    have hfull : (processed ++ [(r, n)]) ++ rest = processed ++ (r, n) :: rest := by
      simp
    have hrproc : r ∉ processed.map Prod.fst := by
      have h1 : (processed.map Prod.fst ++ ((r, n) :: rest).map Prod.fst).Nodup := by
        rw [← List.map_append]; exact hnodup
      intro hmem
      exact (List.nodup_append.mp h1).2.2 hmem (by simp)
    have hnodup2 : (((processed ++ [(r, n)]) ++ rest).map Prod.fst).Nodup := by
      rw [hfull]; exact hnodup
    have hhash2 : ∀ t ∈ hashes, t.2.1 ∈ (processed ++ [(r, n)]).map Prod.fst := by
      intro t ht
      rw [List.map_append]
      exact List.mem_append.mpr (Or.inl (hhash t ht))
    have hkeys2 : ∀ p ∈ dups, p.1 ∈ (processed ++ [(r, n)]).map Prod.fst := by
      intro q hq
      rw [List.map_append]
      exact List.mem_append.mpr (Or.inl (hkeys q hq))
    rw [dedupGo]
    cases hhit : lookupAssoc hashes (simpleHash (contentKey n)) with
    | none =>
      dsimp only
      refine ih (processed ++ [(r, n)])
        ((simpleHash (contentKey n), r, contentKey n) :: hashes) dups
        hnodup2
        ?_ hkeys2 ?_ ?_
      · intro t ht
        rcases List.mem_cons.mp ht with h | h
        · subst h; simp
        · exact hhash2 t h
      · intro q hq
        exact List.mem_map.mpr (by
          rcases List.mem_map.mp (hcanon q hq) with ⟨t, ht, htref⟩
          exact ⟨t, List.mem_cons_of_mem _ ht, htref⟩)
      · intro t ht
        rcases List.mem_cons.mp ht with h | h
        · subst h
          dsimp only
          intro hmem
          rcases List.mem_map.mp hmem with ⟨q, hq, hqfst⟩
          exact hrproc (hqfst ▸ hkeys q hq)
        · exact hdisj t h
    | some orig =>
      dsimp only
      by_cases hbq : orig.2 == contentKey n
      · rw [if_pos hbq]
        refine ih (processed ++ [(r, n)]) hashes (dups ++ [(r, orig.1)])
          hnodup2 hhash2 ?_ ?_ ?_
        · intro q hq
          rcases List.mem_append.mp hq with h | h
          · exact hkeys2 q h
          · rw [List.mem_singleton.mp h]
            rw [List.map_append]
            exact List.mem_append.mpr (Or.inr (by simp))
        · intro q hq
          rcases List.mem_append.mp hq with h | h
          · exact hcanon q h
          · rw [List.mem_singleton.mp h]
            exact List.mem_map.mpr ⟨_, lookupAssoc_mem hhit, rfl⟩
        · intro t ht
          rw [List.map_append]
          intro hmem
          rcases List.mem_append.mp hmem with h | h
          · exact hdisj t ht h
          · have : t.2.1 = r := by simpa using h
            exact hrproc (this ▸ hhash t ht)
      · rw [if_neg hbq]
        exact ih (processed ++ [(r, n)]) hashes dups hnodup2 hhash2 hkeys2 hcanon hdisj

/-- Helper: top-level corollary of `dedupGo_pairs` for `dedupScan`. -/
theorem dedupScan_pairs (table : Graph) (p : ObjectId × ObjectId)
    (hp : p ∈ dedupScan table) :
    ∃ l1 nc l2 nr l3,
      table = l1 ++ (p.2, nc) :: l2 ++ (p.1, nr) :: l3 ∧
      contentKey nc = contentKey nr := by
  have := dedupGo_pairs table [] [] []
    (by intro t ht; exact absurd ht (List.not_mem_nil t))
    (by intro q hq; exact absurd hq (List.not_mem_nil q))
    p hp
  simpa using this

/-- Helper: top-level corollary of `dedupGo_canonical_not_key`. -/
theorem dedupScan_canonical_not_key (table : Graph)
    (hnodup : (table.map Prod.fst).Nodup) (p : ObjectId × ObjectId)
    (hp : p ∈ dedupScan table) : p.2 ∉ (dedupScan table).map Prod.fst := by
  refine dedupGo_canonical_not_key table [] [] [] (by simpa using hnodup)
    ?_ ?_ ?_ ?_ p hp
  all_goals intro t ht; exact absurd ht (List.not_mem_nil t)

/-- C7 amended.  The canonical representative of a duplicate pair is the
FIRST object in table iteration order whose content key matched: whenever
the scan maps `r` to canonical `c`, the entry of `c` occurs strictly
before the entry of `r` in the table and the two entries have equal
content keys.  (Root-set membership and id magnitude play no role.) -/
theorem dedup_canonical_precedes_duplicate (table : Graph) (r c : ObjectId)
    (h : (r, c) ∈ dedupScan table) :
    ∃ l1 nc l2 nr l3,
      table = l1 ++ (c, nc) :: l2 ++ (r, nr) :: l3 ∧
      contentKey nc = contentKey nr :=
  dedupScan_pairs table (r, c) h

set_option maxRecDepth 100000 in
/-- Witness for `dedup_canonical_precedes_duplicate` on the table holding
identical objects at ids 5 then 3. -/
theorem dedup_canonical_precedes_duplicate_witness :
    ∃ l1 nc l2 nr l3,
      firstSeenTable = l1 ++ ((5 : ObjectId), nc) :: l2 ++ ((3 : ObjectId), nr) :: l3 ∧
      contentKey nc = contentKey nr :=
  dedup_canonical_precedes_duplicate firstSeenTable 3 5 (by
    rw [show dedupScan firstSeenTable = [(3, 5)] from rfl]
    exact List.mem_singleton.mpr rfl)

/-- C2 amended.  Restricted to the reference positions the rewriter
actually covers (top-level dictionary entries and array items at any
array-nesting depth, per `childRefs`), `deduplicateObjects` leaves no
dangling references: if the table has pairwise-distinct ids and every
covered reference resolves beforehand, then every covered reference of
every surviving node resolves to a surviving id.  (References inside
nested dictionary values are NOT covered — see the counterexample.) -/
theorem dedup_no_dangling_in_covered_positions (table : Graph)
    (hnodup : (table.map Prod.fst).Nodup)
    (hres : ∀ e ∈ table, ∀ id ∈ childRefs e.2, id ∈ table.map Prod.fst) :
    ∀ e ∈ deduplicateObjects table, ∀ id ∈ childRefs e.2,
      id ∈ (deduplicateObjects table).map Prod.fst := by
  intro e he id hid
  unfold deduplicateObjects at he ⊢
  by_cases hemp : (dedupScan table).isEmpty
  · rw [if_pos hemp] at he ⊢
    exact hres e he id hid
  · rw [if_neg hemp] at he ⊢
    have hsurv : ∀ x, x ∈ table.map Prod.fst → lookupAssoc (dedupScan table) x = none →
        x ∈ ((table.map fun e => (e.1, rewriteNode (dedupScan table) e.2)).filter
          fun e => (lookupAssoc (dedupScan table) e.1).isNone).map Prod.fst := by
      intro x hx hnone
      rcases List.mem_map.mp hx with ⟨ex, hex, hexfst⟩
      refine List.mem_map.mpr ⟨(x, rewriteNode (dedupScan table) ex.2), ?_, rfl⟩
      refine List.mem_filter.mpr ⟨?_, ?_⟩
      · exact List.mem_map.mpr ⟨ex, hex, by rw [hexfst]⟩
      · simp [hnone]
    rcases List.mem_filter.mp he with ⟨hemap, _⟩
    rcases List.mem_map.mp hemap with ⟨e0, he0, heq⟩
    rw [← heq] at hid
    simp only [childRefs_rewriteNode] at hid
    rcases List.mem_map.mp hid with ⟨id0, hid0, hsubst⟩
    have hid0tab : id0 ∈ table.map Prod.fst := hres e0 he0 id0 hid0
    rw [← hsubst]
    unfold substId
    cases hl : lookupAssoc (dedupScan table) id0 with
    | none => exact hsurv id0 hid0tab hl
    | some c =>
      have hpair : (id0, c) ∈ dedupScan table := lookupAssoc_mem hl
      have hctab : c ∈ table.map Prod.fst := by
        rcases dedupScan_pairs table (id0, c) hpair with ⟨l1, nc, l2, nr, l3, hsplit, _⟩
        rw [hsplit]
        simp
      have hcnone : lookupAssoc (dedupScan table) c = none :=
        lookupAssoc_eq_none.mpr (dedupScan_canonical_not_key table hnodup (id0, c) hpair)
      exact hsurv c hctab hcnone

set_option maxRecDepth 100000 in
/-- Witness for `dedup_no_dangling_in_covered_positions`: in
`coveredWitnessTable` the covered reference of surviving object 1 was
redirected from deleted duplicate 3 to canonical 2, which is still
present. -/
theorem dedup_no_dangling_in_covered_positions_witness :
    (2 : ObjectId) ∈ (deduplicateObjects coveredWitnessTable).map Prod.fst :=
  dedup_no_dangling_in_covered_positions coveredWitnessTable
    (by decide)
    (by decide)
    (1, .dict [("A", .ref 2)])
    (by
      rw [show deduplicateObjects coveredWitnessTable =
        [(1, .dict [("A", .ref 2)]), (2, .prim "pp")] from rfl]
      exact List.mem_cons_self _ _)
    2
    (by decide)

/-- C4 amended.  The reference rewriter substitutes the canonical map
exactly on the covered positions: the covered refs of a rewritten node
are the original covered refs with the substitution applied; a
dictionary-valued entry is returned untouched (no recursion into nested
dictionaries); and for a map none of whose canonical targets is itself a
key — as `dedupScan` produces — the rewrite is idempotent. -/
theorem rewriter_substitutes_covered_refs_only
    (dups : List (ObjectId × ObjectId)) (n : Node) :
    childRefs (rewriteNode dups n) = (childRefs n).map (substId dups) ∧
    (∀ k es, updateDictEntries dups [(k, Value.dictV es)] = [(k, Value.dictV es)]) ∧
    ((∀ p ∈ dups, lookupAssoc dups p.2 = none) →
      rewriteNode dups (rewriteNode dups n) = rewriteNode dups n) := by
  refine ⟨childRefs_rewriteNode dups n, ?_, ?_⟩
  · intro k es
    rfl
  · intro hc
    cases n with
    | stream d p => simp [rewriteNode, updateDictEntries_idem dups hc]
    | dict es => simp [rewriteNode, updateDictEntries_idem dups hc]
    | arr items => simp [rewriteNode, updateArrayReferences_idem dups hc]
    | prim s => rfl

/-- Witness for `rewriter_substitutes_covered_refs_only` at the map
`3 ↦ 2` and a one-ref array node. -/
theorem rewriter_substitutes_covered_refs_only_witness :
    childRefs (rewriteNode [(3, 2)] (Node.arr [Value.ref 3])) =
      (childRefs (Node.arr [Value.ref 3])).map (substId [(3, 2)]) ∧
    updateDictEntries [(3, 2)] [("K", Value.dictV [("R", Value.ref 3)])] =
      [("K", Value.dictV [("R", Value.ref 3)])] ∧
    rewriteNode [(3, 2)] (rewriteNode [(3, 2)] (Node.arr [Value.ref 3])) =
      rewriteNode [(3, 2)] (Node.arr [Value.ref 3]) := by
  have h := rewriter_substitutes_covered_refs_only [(3, 2)] (Node.arr [Value.ref 3])
  exact ⟨h.1, h.2.1 "K" [("R", Value.ref 3)], h.2.2 (by decide)⟩

/-- Helper: non-dependent unfolding equation for `markLoop` on a
non-empty stack. -/
theorem markLoop_cons (table : Graph) (visited : List ObjectId) (r : ObjectId)
    (rest : List ObjectId) :
    markLoop table visited (r :: rest) =
      if r ∈ visited then markLoop table visited rest
      else
        match lookupAssoc table r with
        | none => markLoop table (r :: visited) rest
        | some n => markLoop table (r :: visited) (childRefs n ++ rest) := by
  rw [markLoop]
  by_cases hv : r ∈ visited
  · simp only [dif_pos hv, if_pos hv]
  · simp only [dif_neg hv, if_neg hv]
    cases lookupAssoc table r <;> rfl

/-- Helper: a ref already marked stays marked. -/
theorem markLoop_visited_sub (table : Graph) :
    ∀ (visited stack : List ObjectId), ∀ x ∈ visited, x ∈ markLoop table visited stack := by
  intro visited stack
  induction visited, stack using markLoop.induct table with
  | case1 visited => intro x hx; rw [markLoop]; exact hx
  | case2 visited r rest hv ih =>
    intro x hx
    rw [markLoop_cons, if_pos hv]
    exact ih x hx
  | case3 visited r rest hv hl ih =>
    intro x hx
    rw [markLoop_cons, if_neg hv, hl]
    exact ih x (List.mem_cons_of_mem _ hx)
  | case4 visited r rest hv n hl ih =>
    intro x hx
    rw [markLoop_cons, if_neg hv, hl]
    exact ih x (List.mem_cons_of_mem _ hx)

/-- Helper: every ref on the worklist ends up marked. -/
theorem markLoop_stack_sub (table : Graph) :
    ∀ (visited stack : List ObjectId), ∀ x ∈ stack, x ∈ markLoop table visited stack := by
  intro visited stack
  induction visited, stack using markLoop.induct table with
  | case1 visited => intro x hx; exact absurd hx (List.not_mem_nil x)
  | case2 visited r rest hv ih =>
    intro x hx
    rw [markLoop_cons, if_pos hv]
    rcases List.mem_cons.mp hx with h | h
    · subst h; exact markLoop_visited_sub table visited rest x hv
    · exact ih x h
  | case3 visited r rest hv hl ih =>
    intro x hx
    rw [markLoop_cons, if_neg hv, hl]
    rcases List.mem_cons.mp hx with h | h
    · subst h
      exact markLoop_visited_sub table (x :: visited) rest x (List.mem_cons_self x visited)
    · exact ih x h
  | case4 visited r rest hv n hl ih =>
    intro x hx
    rw [markLoop_cons, if_neg hv, hl]
    rcases List.mem_cons.mp hx with h | h
    · subst h
      exact markLoop_visited_sub table (x :: visited) _ x (List.mem_cons_self x visited)
    · exact ih x (List.mem_append.mpr (Or.inr h))

/-- Helper: the traversal marks each ref at most once (the visited set
never acquires a duplicate). -/
theorem markLoop_nodup (table : Graph) :
    ∀ (visited stack : List ObjectId), visited.Nodup → (markLoop table visited stack).Nodup := by
  intro visited stack
  induction visited, stack using markLoop.induct table with
  | case1 visited => intro h; rw [markLoop]; exact h
  | case2 visited r rest hv ih =>
    intro h
    rw [markLoop_cons, if_pos hv]
    exact ih h
  | case3 visited r rest hv hl ih =>
    intro h
    rw [markLoop_cons, if_neg hv, hl]
    exact ih (List.nodup_cons.mpr ⟨hv, h⟩)
  | case4 visited r rest hv n hl ih =>
    intro h
    rw [markLoop_cons, if_neg hv, hl]
    exact ih (List.nodup_cons.mpr ⟨hv, h⟩)

/-- Helper: the marked set is closed under the child references of
resolvable marked refs, provided every already-visited ref had its
children accounted for in the visited set or on the worklist. -/
theorem markLoop_closed (table : Graph) :
    ∀ (visited stack : List ObjectId),
      (∀ v ∈ visited, ∀ n, lookupAssoc table v = some n →
        ∀ c ∈ childRefs n, c ∈ visited ∨ c ∈ stack) →
      ∀ v ∈ markLoop table visited stack, ∀ n, lookupAssoc table v = some n →
        ∀ c ∈ childRefs n, c ∈ markLoop table visited stack := by
  intro visited stack
  induction visited, stack using markLoop.induct table with
  | case1 visited =>
    intro hinv v hvmem n hvn c hc
    rw [markLoop] at hvmem ⊢
    rcases hinv v hvmem n hvn c hc with h | h
    · exact h
    · exact absurd h (List.not_mem_nil c)
  | case2 visited r rest hv ih =>
    intro hinv
    rw [markLoop_cons, if_pos hv]
    refine ih ?_
    intro v hvmem n hvn c hc
    rcases hinv v hvmem n hvn c hc with h | h
    · exact Or.inl h
    · rcases List.mem_cons.mp h with h2 | h2
      · exact Or.inl (h2 ▸ hv)
      · exact Or.inr h2
  | case3 visited r rest hv hl ih =>
    intro hinv
    rw [markLoop_cons, if_neg hv, hl]
    refine ih ?_
    intro v hvmem n hvn c hc
    rcases List.mem_cons.mp hvmem with h | h
    · subst h
      rw [hl] at hvn
      exact Option.noConfusion hvn
    · rcases hinv v h n hvn c hc with h2 | h2
      · exact Or.inl (List.mem_cons_of_mem _ h2)
      · rcases List.mem_cons.mp h2 with h3 | h3
        · exact Or.inl (h3 ▸ List.mem_cons_self r visited)
        · exact Or.inr h3
  | case4 visited r rest hv n hl ih =>
    intro hinv
    rw [markLoop_cons, if_neg hv, hl]
    refine ih ?_
    intro v hvmem n2 hvn c hc
    rcases List.mem_cons.mp hvmem with h | h
    · subst h
      rw [hl] at hvn
      cases Option.some.inj hvn
      exact Or.inr (List.mem_append.mpr (Or.inl hc))
    · rcases hinv v h n2 hvn c hc with h2 | h2
      · exact Or.inl (List.mem_cons_of_mem _ h2)
      · rcases List.mem_cons.mp h2 with h3 | h3
        · exact Or.inl (h3 ▸ List.mem_cons_self r visited)
        · exact Or.inr (List.mem_append.mpr (Or.inr h3))

/-- C9.  For EVERY finite table — reference cycles included — the
traversal `traverseAndMarkReferences` is a total function (it is defined
by a measure that strictly decreases, so it terminates), it marks each
ObjectId at most once (the result list has no duplicates), and every ref
reachable from the root by a finite chain of child references remains in
the marked set — in particular every member of a reachable cycle. -/
theorem traversal_terminates_and_marks_reachable (table : Graph) (root : ObjectId) :
    (traverseAndMarkReferences table root).Nodup ∧
    ∀ id, Reachable table root id → id ∈ traverseAndMarkReferences table root := by
  constructor
  · exact markLoop_nodup table [] [root] List.nodup_nil
  · have hclosed := markLoop_closed table [] [root]
      (fun v hv => absurd hv (List.not_mem_nil v))
    have hroot : root ∈ traverseAndMarkReferences table root :=
      markLoop_stack_sub table [] [root] root (List.mem_cons_self root [])
    intro id h
    induction h with
    | base => exact hroot
    | step ha hn hc ih => exact hclosed _ ih _ hn _ hc

/-- Witness for `traversal_terminates_and_marks_reachable` on the
Scenario D cycle (array 10 and dictionary 11 reference each other):
the traversal terminates, marks without duplicates, and both cycle
members are in the marked set. -/
theorem traversal_terminates_and_marks_reachable_witness :
    (traverseAndMarkReferences cycleTable 10).Nodup ∧
    (11 : ObjectId) ∈ traverseAndMarkReferences cycleTable 10 ∧
    (10 : ObjectId) ∈ traverseAndMarkReferences cycleTable 10 := by
  have h := traversal_terminates_and_marks_reachable cycleTable 10
  refine ⟨h.1, ?_, h.2 10 Reachable.base⟩
  refine h.2 11 (Reachable.step Reachable.base (n := Node.arr [Value.ref 11]) rfl ?_)
  simp [childRefs, itemRefs]
